import Mathlib

/-!
Shallow embedding of the asynchronous control-flow combinators of
`src/asyncUtils/async-utils.ts` (typescript-utils), together with theorems
checking the natural-language specification against them.

Modelling conventions:
* A caller-supplied asynchronous operation is modelled as a script
  `fn : Nat → Except ε α` giving the settled outcome of its `i`-th invocation
  (invocation numbering starts at 0).  All the combinators under study await
  each promise before acting on it, so settled outcomes suffice.
* Loops (`for`, `while`) are translated with an explicit fuel equal to the
  loop bound, matching the JS iteration count exactly.
* Each combinator that can invoke the operation several times also returns the
  number of invocations performed, and the retry combinators additionally
  return the trace of waits (in ms) performed by `setTimeout`.
-/

namespace AsyncUtils

/-- Failure channel of `retryWithDelay` / `retryWithBackoff`: the code throws
`new Error('Retry limit exceeded')` on exhaustion; an `opErr` constructor is
provided so that "the last underlying error is discarded" is expressible. -/
inductive RetryFailure (ε : Type) where
  | limitExceeded : RetryFailure ε
  | opErr : ε → RetryFailure ε
deriving DecidableEq, Repr

/-- Loop body of `retry` (`for (let i = 0; i < retries; i++) { try { return
await fn(); } catch (error) { if (i === retries - 1) throw error; } }`).
`fuel` is `retries - i`; the result pairs the settled outcome with the number
of invocations of `fn` performed.  Falling off the loop returns `undefined`,
modelled as `Except.ok none`. -/
def retryGo (fn : Nat → Except ε α) (retries : Nat) : Nat → Nat → Except ε (Option α) × Nat
  | _, 0 => (.ok none, 0)
  | i, fuel + 1 =>
    match fn i with
    | .ok v => (.ok (some v), 1)
    | .error e =>
      if i = retries - 1 then (.error e, 1)
      else
        let r := retryGo fn retries (i + 1) fuel
        (r.1, r.2 + 1)

/-- `retry(fn, retries)` from async-utils.ts. -/
def retry (fn : Nat → Except ε α) (retries : Nat) : Except ε (Option α) × Nat :=
  retryGo fn retries 0 retries

/-- Loop of `retryWithDelay` (`while (retries < maxRetries) { try { return
await asyncOperation(); } catch (error) { retries++; await delay; } } throw
new Error('Retry limit exceeded');`).  Returns (outcome, invocation count,
trace of waits). -/
def delayLoop (fn : Nat → Except ε α) (delay : Int) :
    Nat → Nat → List Int → Except (RetryFailure ε) α × Nat × List Int
  | 0, attempt, acc => (.error .limitExceeded, attempt, acc)
  | fuel + 1, attempt, acc =>
    match fn attempt with
    | .ok v => (.ok v, attempt + 1, acc)
    | .error _ => delayLoop fn delay fuel (attempt + 1) (acc ++ [delay])

/-- `retryWithDelay(fn, maxRetries, delay)` from async-utils.ts. -/
def retryWithDelay (fn : Nat → Except ε α) (maxRetries : Nat) (delay : Int) :
    Except (RetryFailure ε) α × Nat × List Int :=
  delayLoop fn delay maxRetries 0 []

/-- Loop of `retryWithBackoff`: as `retryWithDelay` but the delay variable is
updated by `delay = Math.min(delay * 2, maxDelay)` after each wait. -/
def backoffLoop (fn : Nat → Except ε α) (maxDelay : Int) :
    Nat → Nat → Int → List Int → Except (RetryFailure ε) α × Nat × List Int
  | 0, attempt, _, acc => (.error .limitExceeded, attempt, acc)
  | fuel + 1, attempt, delay, acc =>
    match fn attempt with
    | .ok v => (.ok v, attempt + 1, acc)
    | .error _ => backoffLoop fn maxDelay fuel (attempt + 1) (min (delay * 2) maxDelay) (acc ++ [delay])

/-- `retryWithBackoff(fn, maxRetries, baseDelay, maxDelay)` from async-utils.ts. -/
def retryWithBackoff (fn : Nat → Except ε α) (maxRetries : Nat) (baseDelay maxDelay : Int) :
    Except (RetryFailure ε) α × Nat × List Int :=
  backoffLoop fn maxDelay maxRetries 0 baseDelay []

/-- An operation whose every invocation rejects, used as concrete input. -/
def alwaysFailOp : Nat → Except String Int := fun _ => .error "boom"

/-! ### circuitBreaker -/

/-- Outcome of one call to the value `circuitBreaker` produces: the wrapped
operation's success or error, or the `new Error('Circuit is open')` path. -/
inductive CBOutcome (ε α : Type) where
  | ok : α → CBOutcome ε α
  | opError : ε → CBOutcome ε α
  | circuitOpen : CBOutcome ε α
deriving DecidableEq, Repr

/-- Body of the inner `async function ()` of `circuitBreaker`, acting on the
closure state `(failures, circuitOpen)` and the invocation counter of the
wrapped operation.  The `setTimeout(() => { circuitOpen = false; failures =
0; }, cooldownPeriod)` only schedules a reset of this same state, so it is
not part of the immediate transition. -/
def circuitBreakerInner (op : Nat → Except ε α) (maxFailures : Nat)
    (failures : Nat) (circuitOpen : Bool) (opCount : Nat) :
    CBOutcome ε α × Nat × Bool × Nat :=
  if circuitOpen then (.circuitOpen, failures, circuitOpen, opCount)
  else
    match op opCount with
    | .ok v => (.ok v, 0, circuitOpen, opCount + 1)
    | .error e =>
      if failures + 1 ≥ maxFailures then (.opError e, failures + 1, true, opCount + 1)
      else (.opError e, failures + 1, circuitOpen, opCount + 1)

/-- `circuitBreaker(op, maxFailures, cooldownPeriod)` from async-utils.ts:
`let failures = 0; let circuitOpen = false; return (async function () {...})();`
— the inner closure is invoked immediately on the freshly initialised state
and only its settled outcome escapes; the mutated state is discarded.
Returns the outcome together with the updated invocation counter of `op`. -/
def circuitBreaker (op : Nat → Except ε α) (maxFailures : Nat) (cooldownPeriod : Nat)
    (opCount : Nat) : CBOutcome ε α × Nat :=
  let failures := 0
  let circuitOpen := false
  let r := circuitBreakerInner op maxFailures failures circuitOpen opCount
  (r.1, r.2.2.2)

/-- `n` successive calls to `circuitBreaker` with the same arguments,
threading the operation's invocation counter; returns the list of outcomes
and the final invocation count. -/
def circuitBreakerCalls (op : Nat → Except ε α) (maxFailures cooldownPeriod : Nat) :
    Nat → Nat → List (CBOutcome ε α) × Nat
  | 0, opCount => ([], opCount)
  | n + 1, opCount =>
    let r := circuitBreaker op maxFailures cooldownPeriod opCount
    let rest := circuitBreakerCalls op maxFailures cooldownPeriod n r.2
    (r.1 :: rest.1, rest.2)

/-! ### debounceAsync -/

/-- Observable state of one debounce cycle: the pending timeout (tagged with
the index of the call that scheduled it) and the promises settled so far.
The executor `new Promise((resolve) => { timer = setTimeout(...) })` never
names a reject function, so `rejected` can only ever stay empty. -/
structure DebounceState (α : Type) where
  timer : Option Nat
  resolved : List (Nat × α)
  rejected : List Nat
deriving DecidableEq, Repr

/-- One call to the function `debounceAsync` returns: `if (timer)
clearTimeout(timer);` cancels any pending timeout, then the new promise's
executor schedules a fresh timeout resolving this call's promise (index `i`). -/
def dbCall (s : DebounceState α) (i : Nat) : DebounceState α :=
  { s with timer := some i }

/-- The delay elapsing: the pending timeout (if any) fires and runs
`async () => { resolve(await fn(...args)); timer = null; }`.  When `fn`
rejects, the `await` throws inside the callback, so `resolve` is never
reached and the promise of call `i` settles in neither direction. -/
def dbFire (fnOutcome : Except ε α) (s : DebounceState α) : DebounceState α :=
  match s.timer with
  | none => s
  | some i =>
    match fnOutcome with
    | .ok v => { s with timer := none, resolved := s.resolved ++ [(i, v)] }
    | .error _ => { s with timer := none }

/-- One debounce cycle: `n` calls in quick succession (each within the delay
window of the previous one), then the window elapses and the surviving
timeout fires with the single execution's outcome `fnOutcome`. -/
def debounceCycle (n : Nat) (fnOutcome : Except ε α) : DebounceState α :=
  dbFire fnOutcome ((List.range n).foldl dbCall ⟨none, [], []⟩)

/-! ### memoizeAsync -/

/-- State owned by the closure `memoizeAsync` returns: the
`Map<string, Promise<any>>` cache (association list keyed by the serialized
arguments) plus the running count of invocations of the underlying `fn`. -/
def MemoState (ε β : Type) := List (String × Except ε β) × Nat

/-- One call to the function `memoizeAsync(fn)` returns: `key =
JSON.stringify(args)` (modelled by a caller-supplied serialization `ser`);
on a miss the cache stores `fn(...args)` — the deferred result itself,
before it settles — and the stored entry is what is returned; entries are
never removed.  `fn` is modelled by the script of its invocation outcomes,
indexed by the invocation counter. -/
def memoizeCall (ser : γ → String) (fn : γ → Nat → Except ε β)
    (st : MemoState ε β) (args : γ) : Except ε β × MemoState ε β :=
  let key := ser args
  match st.1.lookup key with
  | some p => (p, st)
  | none =>
    let p := fn args st.2
    (p, (st.1 ++ [(key, p)], st.2 + 1))

/-- A sequence of calls to the memoized function, returning for each call its
settled result together with the state right after that call. -/
def memoRun (ser : γ → String) (fn : γ → Nat → Except ε β) :
    List γ → MemoState ε β → List (Except ε β × MemoState ε β)
  | [], _ => []
  | a :: rest, st =>
    let r := memoizeCall ser fn st a
    r :: memoRun ser fn rest r.2

/-! ### batch -/

/-- Resolved value of an operation passed to `batch`; only the array/non-array
distinction matters to `Array.prototype.flat`. -/
inductive JVal where
  | str : String → JVal
  | num : Int → JVal
  | arr : List JVal → JVal

/-- `Array.prototype.flat()` (depth 1): array elements are spliced in, other
elements kept. -/
def flat1 : List JVal → List JVal
  | [] => []
  | .arr xs :: rest => xs ++ flat1 rest
  | .str s :: rest => .str s :: flat1 rest
  | .num n :: rest => .num n :: flat1 rest

/-- The chunking loop of `batch` (`for (let i = 0; i < fns.length; i +=
batchSize) batches.push(fns.slice(i, i + batchSize));`), with fuel bounding
the iteration count (for `batchSize ≥ 1` a fuel of `fns.length` suffices). -/
def chunksGo (batchSize : Nat) : Nat → List α → List (List α)
  | 0, _ => []
  | _ + 1, [] => []
  | fuel + 1, x :: rest => ((x :: rest).take batchSize) :: chunksGo batchSize fuel ((x :: rest).drop batchSize)

/-- `batch(fns, batchSize)` from async-utils.ts, with each operation already
resolved to its value: the groups run under `Promise.all`, each group's
result array goes through `batchResults.flat()`, and the array of group
results is flattened (one level, i.e. concatenated) into the final answer. -/
def batch (ops : List JVal) (batchSize : Nat) : List JVal :=
  let batches := chunksGo batchSize ops.length ops
  (batches.map flat1).flatten

/-! ## Lemmas about the retry loop -/

lemma retryGo_count_le (fn : Nat → Except ε α) (retries : Nat) :
    ∀ fuel i, (retryGo fn retries i fuel).2 ≤ fuel := by
  intro fuel
  induction fuel with
  | zero => intro i; simp [retryGo]
  | succ f ih =>
    intro i
    simp only [retryGo]
    cases fn i with
    | ok v => simp
    | error e =>
      by_cases h : i = retries - 1
      · simp [h]
      · simp only [h, if_false]
        exact Nat.succ_le_succ (ih (i + 1))

lemma retryGo_first_success (fn : Nat → Except ε α) (retries : Nat) (s : Nat) (v : α)
    (hs : s < retries) (hok : fn s = .ok v) :
    ∀ fuel i, i ≤ s → s < i + fuel →
      (∀ j, i ≤ j → j < s → ∃ e, fn j = .error e) →
      (retryGo fn retries i fuel).1 = .ok (some v) := by
  intro fuel
  induction fuel with
  | zero => intro i h1 h2 _; omega
  | succ f ih =>
    intro i h1 h2 hfail
    simp only [retryGo]
    rcases Nat.lt_or_ge i s with hlt | hge
    · obtain ⟨e, he⟩ := hfail i (le_refl i) hlt
      rw [he]
      have hne : i ≠ retries - 1 := by omega
      simp only [hne, if_false]
      exact ih (i + 1) (by omega) (by omega) (fun j hj1 hj2 => hfail j (by omega) hj2)
    · have : i = s := by omega
      subst this
      rw [hok]

lemma retryGo_all_fail (fn : Nat → Except ε α) (retries : Nat) (e : ε)
    (hlast : fn (retries - 1) = .error e) :
    ∀ fuel i, 1 ≤ fuel → i + fuel = retries →
      (∀ j, i ≤ j → j < retries → ∃ e2, fn j = .error e2) →
      (retryGo fn retries i fuel).1 = .error e := by
  intro fuel
  induction fuel with
  | zero => intro i h; omega
  | succ f ih =>
    intro i _ hsum hfail
    simp only [retryGo]
    rcases Nat.eq_zero_or_pos f with hf | hf
    · subst hf
      have hi : i = retries - 1 := by omega
      rw [hi, hlast]
      simp
    · have hne : i ≠ retries - 1 := by omega
      obtain ⟨e2, he2⟩ := hfail i (le_refl i) (by omega)
      rw [he2]
      simp only [hne, if_false]
      exact ih (i + 1) hf (by omega) (fun j hj1 hj2 => hfail j (by omega) hj2)

/-- If no invocation among the first `retries` succeeds, every scripted
outcome there is an error. -/
lemma no_success_all_fail (fn : Nat → Except ε α) (retries : Nat)
    (h : ¬ ∃ i, i < retries ∧ ∃ v, fn i = .ok v) :
    ∀ j, j < retries → ∃ e, fn j = .error e := by
  intro j hj
  cases hfn : fn j with
  | ok v => exact absurd ⟨j, hj, v, hfn⟩ h
  | error e => exact ⟨e, rfl⟩

/-- C3: for every operation script and every `maxAttempts ≥ 1`, `retry`
succeeds iff one of the first `maxAttempts` invocations succeeds; it returns
the first successful attempt's result; when all attempts fail it fails with
exactly the last attempt's error; and it invokes the operation at most
`maxAttempts` times. -/
theorem retry_spec (fn : Nat → Except ε α) (n : Nat) (hn : 1 ≤ n) :
    ((∃ v, (retry fn n).1 = .ok (some v)) ↔ ∃ i, i < n ∧ ∃ v, fn i = .ok v) ∧
    (∀ s v, s < n → fn s = .ok v → (∀ j, j < s → ∃ e, fn j = .error e) →
      (retry fn n).1 = .ok (some v)) ∧
    (∀ e, (∀ j, j < n → ∃ e2, fn j = .error e2) → fn (n - 1) = .error e →
      (retry fn n).1 = .error e) ∧
    (retry fn n).2 ≤ n := by
  refine ⟨?_, ?_, ?_, retryGo_count_le fn n n 0⟩
  · constructor
    · intro ⟨v, hv⟩
      by_contra hno
      obtain ⟨e, he⟩ := no_success_all_fail fn n hno (n - 1) (by omega)
      have := retryGo_all_fail fn n e he n 0 hn (by omega)
        (fun j _ hj2 => no_success_all_fail fn n hno j hj2)
      rw [retry] at hv
      rw [this] at hv
      exact absurd hv (by simp)
    · intro ⟨i, hi, v, hv⟩
      classical
      have hex : ∃ i, i < n ∧ ∃ v, fn i = .ok v := ⟨i, hi, v, hv⟩
      have hexP : ∃ m, ∃ v, fn m = .ok v := ⟨i, v, hv⟩
      obtain ⟨w, hw⟩ := Nat.find_spec hexP
      have hsle : Nat.find hexP ≤ i := Nat.find_le ⟨v, hv⟩
      refine ⟨w, ?_⟩
      exact retryGo_first_success fn n (Nat.find hexP) w (by omega) hw n 0
        (by omega) (by omega)
        (fun j _ hj2 => by
          have := Nat.find_min hexP hj2
          cases hfn : fn j with
          | ok u => exact absurd ⟨u, hfn⟩ this
          | error e => exact ⟨e, rfl⟩)
  · intro s v hs hok hfail
    exact retryGo_first_success fn n s v hs hok n 0 (by omega) (by omega)
      (fun j _ hj2 => hfail j hj2)
  · intro e hfail hlast
    exact retryGo_all_fail fn n e hlast n 0 hn (by omega) (fun j _ hj2 => hfail j hj2)

/-- C3 witness: the theorem applied to a script whose second invocation
succeeds with 42 and `maxAttempts = 3`. -/
theorem retry_spec_witness :
    1 ≤ 3 ∧
    (retry (fun i => if i = 1 then (.ok 42 : Except String Int) else .error "e") 3).1 =
      .ok (some 42) :=
  ⟨by decide,
    (retry_spec (fun i => if i = 1 then (.ok 42 : Except String Int) else .error "e") 3
        (by decide)).2.1 1 42 (by decide) rfl
      (fun j hj => ⟨"e", by
        have hj0 : j = 0 := by omega
        subst hj0
        rfl⟩)⟩

/-- C5 counterexample: `retry` with `maxAttempts = 0` does not fail — the
loop body never runs and the function resolves with `undefined` (here
`Except.ok none`), with zero invocations of the operation. -/
theorem retry_zero_attempts_resolves :
    retry alwaysFailOp 0 = (.ok none, 0) := rfl

/-- C5 (amended): with `maxAttempts = 0`, `retryWithDelay` and
`retryWithBackoff` fail immediately with the generic retry-limit error and
never invoke the operation, while `retry` instead resolves immediately with
`undefined`, also without invoking the operation. -/
theorem retry_family_zero_attempts (fn : Nat → Except ε α) (d b M : Int) :
    retry fn 0 = (.ok none, 0) ∧
    retryWithDelay fn 0 d = (.error .limitExceeded, 0, []) ∧
    retryWithBackoff fn 0 b M = (.error .limitExceeded, 0, []) :=
  ⟨rfl, rfl, rfl⟩

/-! ## Lemmas about the delay and backoff loops -/

lemma delayLoop_all_fail (fn : Nat → Except ε α) (d : Int) :
    ∀ fuel attempt acc,
      (∀ j, attempt ≤ j → j < attempt + fuel → ∃ e, fn j = .error e) →
      (delayLoop fn d fuel attempt acc).1 = .error .limitExceeded := by
  intro fuel
  induction fuel with
  | zero => intro attempt acc _; rfl
  | succ f ih =>
    intro attempt acc hfail
    obtain ⟨e, he⟩ := hfail attempt (le_refl _) (by omega)
    simp only [delayLoop, he]
    exact ih (attempt + 1) (acc ++ [d]) (fun j hj1 hj2 => hfail j (by omega) (by omega))

lemma backoffLoop_all_fail (fn : Nat → Except ε α) (M : Int) :
    ∀ fuel attempt delay acc,
      (∀ j, attempt ≤ j → j < attempt + fuel → ∃ e, fn j = .error e) →
      (backoffLoop fn M fuel attempt delay acc).1 = .error .limitExceeded := by
  intro fuel
  induction fuel with
  | zero => intro attempt delay acc _; rfl
  | succ f ih =>
    intro attempt delay acc hfail
    obtain ⟨e, he⟩ := hfail attempt (le_refl _) (by omega)
    simp only [backoffLoop, he]
    exact ih (attempt + 1) _ _ (fun j hj1 hj2 => hfail j (by omega) (by omega))

/-- C7: when every one of the first `maxAttempts ≥ 1` invocations fails,
`retryWithDelay` and `retryWithBackoff` both fail with the generic
`Retry limit exceeded` error and never with the last (or any) underlying
operation error, which is discarded. -/
theorem retry_exhaustion_generic_error (fn : Nat → Except ε α) (n : Nat)
    (d b M : Int) (hn : 1 ≤ n)
    (hfail : ∀ j, j < n → ∃ e, fn j = .error e) :
    (retryWithDelay fn n d).1 = .error .limitExceeded ∧
    (retryWithBackoff fn n b M).1 = .error .limitExceeded ∧
    (∀ e, (retryWithDelay fn n d).1 ≠ .error (.opErr e)) ∧
    (∀ e, (retryWithBackoff fn n b M).1 ≠ .error (.opErr e)) := by
  have h1 : (retryWithDelay fn n d).1 = .error .limitExceeded :=
    delayLoop_all_fail fn d n 0 [] (fun j _ hj2 => hfail j (by omega))
  have h2 : (retryWithBackoff fn n b M).1 = .error .limitExceeded :=
    backoffLoop_all_fail fn M n 0 b [] (fun j _ hj2 => hfail j (by omega))
  refine ⟨h1, h2, ?_, ?_⟩
  · intro e h
    rw [h1] at h
    exact absurd h (by simp)
  · intro e h
    rw [h2] at h
    exact absurd h (by simp)

/-- C7 witness: the theorem applied to an always-failing operation with two
attempts. -/
theorem retry_exhaustion_generic_error_witness :
    1 ≤ 2 ∧
    (retryWithDelay alwaysFailOp 2 5).1 = .error .limitExceeded ∧
    (retryWithBackoff alwaysFailOp 2 10 30).1 = .error .limitExceeded :=
  ⟨by decide,
    (retry_exhaustion_generic_error alwaysFailOp 2 5 10 30 (by decide)
      (fun j _ => ⟨"boom", rfl⟩)).1,
    (retry_exhaustion_generic_error alwaysFailOp 2 5 10 30 (by decide)
      (fun j _ => ⟨"boom", rfl⟩)).2.1⟩

/-! ## The backoff delay sequence -/

/-- One update of the delay variable: `delay = Math.min(delay * 2, maxDelay)`
follows the closed form `min(baseDelay * 2^t, maxDelay)` as long as
`baseDelay ≤ maxDelay`. -/
lemma backoff_min_double (b M : Int) (h : b ≤ M) (t : Nat) :
    min (min (b * 2 ^ t) M * 2) M = min (b * 2 ^ (t + 1)) M := by
  have hsucc : b * 2 ^ (t + 1) = b * 2 ^ t * 2 := by ring
  rcases le_or_lt (b * 2 ^ t) M with hle | hlt
  · rw [min_eq_left hle, hsucc]
  · have hM : 0 ≤ M := by
      by_contra hneg
      push_neg at hneg
      have h1 : (1 : Int) ≤ 2 ^ t := by
        calc (1 : Int) = 1 ^ t := (one_pow t).symm
        _ ≤ 2 ^ t := pow_le_pow_left (by norm_num) (by norm_num) t
      have hb : b ≤ 0 := by linarith
      have : b * 2 ^ t ≤ b * 1 := mul_le_mul_of_nonpos_left h1 hb
      linarith
    rw [min_eq_right (le_of_lt hlt), min_eq_right (by linarith : M ≤ M * 2),
      min_eq_right (by linarith : M ≤ b * 2 ^ (t + 1))]

lemma backoffLoop_delays (fn : Nat → Except ε α) (b M : Int) (hbM : b ≤ M) :
    ∀ fuel attempt t acc dv,
      dv = min (b * 2 ^ t) M →
      acc.length = t →
      (∀ j d, acc.get? j = some d → d = min (b * 2 ^ j) M) →
      ∀ j d, ((backoffLoop fn M fuel attempt dv acc).2.2).get? j = some d →
        d = min (b * 2 ^ j) M := by
  intro fuel
  induction fuel with
  | zero => intro attempt t acc dv _ _ hacc j d hget; exact hacc j d hget
  | succ f ih =>
    intro attempt t acc dv hdv hlen hacc j d hget
    cases hfn : fn attempt with
    | ok v =>
      simp only [backoffLoop, hfn] at hget
      exact hacc j d hget
    | error e =>
      simp only [backoffLoop, hfn] at hget
      refine ih (attempt + 1) (t + 1) (acc ++ [dv]) _ ?_ ?_ ?_ j d hget
      · rw [hdv, backoff_min_double b M hbM t]
      · simp [hlen]
      · intro j2 d2 hg
        rcases Nat.lt_trichotomy j2 acc.length with hlt | heq | hgt
        · rw [List.get?_append hlt] at hg
          exact hacc j2 d2 hg
        · rw [heq, List.get?_concat_length] at hg
          rw [heq, hlen]
          cases hg
          exact hdv
        · have hnone : (acc ++ [dv]).get? j2 = none := by
            apply List.get?_eq_none.mpr
            simp only [List.length_append, List.length_cons, List.length_nil]
            omega
          rw [hnone] at hg
          cases hg

/-- C8 (amended): provided `baseDelay ≤ maxDelay`, the wait performed after
failed attempt `k` (1-indexed; index `j = k - 1` in the wait trace) equals
`min(baseDelay * 2^(k-1), maxDelay)`. -/
theorem retryWithBackoff_delay_sequence (fn : Nat → Except ε α) (n : Nat) (b M : Int)
    (hbM : b ≤ M) :
    ∀ j d, ((retryWithBackoff fn n b M).2.2).get? j = some d → d = min (b * 2 ^ j) M := by
  intro j d hget
  refine backoffLoop_delays fn b M hbM n 0 0 [] b ?_ rfl ?_ j d hget
  · simp [min_eq_left hbM]
  · intro j2 d2 hg
    simp at hg

/-- C8 witness: with an always-failing operation, 4 attempts, base delay 10
and cap 30 the second wait is 20 = min(10 * 2, 30). -/
theorem retryWithBackoff_delay_sequence_witness :
    (10 : Int) ≤ 30 ∧ (20 : Int) = min (10 * 2 ^ 1) 30 :=
  ⟨by norm_num,
    retryWithBackoff_delay_sequence alwaysFailOp 4 10 30 (by norm_num) 1 20 rfl⟩

/-- C8 counterexample: with base delay 10 and cap 3 the wait after the first
failed attempt is the raw base delay 10, not min(10 * 2^0, 3) = 3 as the
claim states for every `baseDelay` and `maxDelay`. -/
theorem retryWithBackoff_delay_counterexample :
    ((retryWithBackoff alwaysFailOp 1 10 3).2.2).get? 0 = some 10 ∧
    ¬ ((10 : Int) = min (10 * 2 ^ 0) 3) :=
  ⟨rfl, by norm_num⟩

/-! ## Batch -/

/-- Whether a resolved value is a JS array (the case `Array.prototype.flat`
splices). -/
def JVal.isArr : JVal → Bool
  | .arr _ => true
  | _ => false

lemma flat1_of_no_arr : ∀ l : List JVal, (∀ v ∈ l, v.isArr = false) → flat1 l = l := by
  intro l
  induction l with
  | nil => intro _; rfl
  | cons x rest ih =>
    intro h
    cases x with
    | str s =>
      simp only [flat1]
      rw [ih (fun v hv => h v (List.mem_cons_of_mem _ hv))]
    | num n =>
      simp only [flat1]
      rw [ih (fun v hv => h v (List.mem_cons_of_mem _ hv))]
    | arr xs =>
      have := h (.arr xs) (List.mem_cons_self _ _)
      simp [JVal.isArr] at this

lemma chunksGo_flatten (bs : Nat) (hbs : 1 ≤ bs) :
    ∀ (fuel : Nat) (xs : List α), xs.length ≤ fuel →
      (chunksGo bs fuel xs).flatten = xs := by
  intro fuel
  induction fuel with
  | zero =>
    intro xs hlen
    have : xs = [] := List.eq_nil_of_length_eq_zero (by omega)
    subst this
    rfl
  | succ f ih =>
    intro xs hlen
    cases xs with
    | nil => rfl
    | cons x rest =>
      simp only [chunksGo, List.flatten_cons]
      rw [ih ((x :: rest).drop bs) (by
        rw [List.length_drop]
        simp only [List.length_cons] at hlen ⊢
        omega)]
      exact List.take_append_drop bs (x :: rest)

lemma chunksGo_length_le (bs : Nat) :
    ∀ (fuel : Nat) (xs : List α), ∀ c ∈ chunksGo bs fuel xs, c.length ≤ bs := by
  intro fuel
  induction fuel with
  | zero => intro xs c hc; simp [chunksGo] at hc
  | succ f ih =>
    intro xs c hc
    cases xs with
    | nil => simp [chunksGo] at hc
    | cons x rest =>
      simp only [chunksGo, List.mem_cons] at hc
      rcases hc with hc | hc
      · subst hc
        simp [List.length_take]
      · exact ih _ c hc

lemma chunksGo_subset (bs : Nat) :
    ∀ (fuel : Nat) (xs : List α), ∀ c ∈ chunksGo bs fuel xs, ∀ v ∈ c, v ∈ xs := by
  intro fuel
  induction fuel with
  | zero => intro xs c hc; simp [chunksGo] at hc
  | succ f ih =>
    intro xs c hc
    cases xs with
    | nil => simp [chunksGo] at hc
    | cons x rest =>
      simp only [chunksGo, List.mem_cons] at hc
      rcases hc with hc | hc
      · subst hc
        exact fun v hv => List.take_subset _ _ hv
      · intro v hv
        exact List.drop_subset bs (x :: rest) (ih _ c hc v hv)

/-- C4 (amended): for `batchSize ≥ 1`, `batch` cuts the operations into
consecutive groups of at most `batchSize`, and — whenever no operation
resolves to an array value — resolves with exactly one result per operation
in the original input order.  (With an array-valued result, the
`batchResults.flat()` call splices that array into the output instead.) -/
theorem batch_preserves_order (ops : List JVal) (bs : Nat) (h1 : 1 ≤ bs)
    (h2 : ops.all (fun v => !v.isArr) = true) :
    batch ops bs = ops ∧ ∀ c ∈ chunksGo bs ops.length ops, c.length ≤ bs := by
  have hno : ∀ v ∈ ops, v.isArr = false := by
    intro v hv
    have := List.all_eq_true.mp h2 v hv
    simpa using this
  constructor
  · show ((chunksGo bs ops.length ops).map flat1).flatten = ops
    have hmap : (chunksGo bs ops.length ops).map flat1 = chunksGo bs ops.length ops := by
      have : ∀ c ∈ chunksGo bs ops.length ops, flat1 c = c := by
        intro c hc
        exact flat1_of_no_arr c (fun v hv => hno v (chunksGo_subset bs _ ops c hc v hv))
      calc (chunksGo bs ops.length ops).map flat1
          = (chunksGo bs ops.length ops).map id := List.map_congr_left this
        _ = chunksGo bs ops.length ops := List.map_id _
    rw [hmap]
    exact chunksGo_flatten bs h1 ops.length ops (le_refl _)
  · exact chunksGo_length_le bs ops.length ops

/-- C4 witness: three operations resolving to the strings a, b, c with
`batchSize = 2` resolve to those three results in order. -/
theorem batch_preserves_order_witness :
    1 ≤ 2 ∧
    batch [JVal.str "a", JVal.str "b", JVal.str "c"] 2 =
      [JVal.str "a", JVal.str "b", JVal.str "c"] :=
  ⟨by decide,
    (batch_preserves_order [JVal.str "a", JVal.str "b", JVal.str "c"] 2
      (by decide) rfl).1⟩

/-- C4 counterexample: a single operation resolving to the array value
`[1, 2]` yields two entries in the output of `batch`, so the output is not
one result per operation. -/
theorem batch_counterexample :
    (batch [JVal.arr [JVal.num 1, JVal.num 2]] 1).length = 2 ∧
    ([JVal.arr [JVal.num 1, JVal.num 2]] : List JVal).length = 1 := ⟨rfl, rfl⟩

/-! ## Memoization -/

lemma lookup_append_some {β : Type} {l l2 : List (String × β)} {k : String} {p : β}
    (h : l.lookup k = some p) : (l ++ l2).lookup k = some p := by
  induction l with
  | nil => simp at h
  | cons a t ih =>
    obtain ⟨k1, v1⟩ := a
    rw [List.lookup_cons] at h
    rw [List.cons_append, List.lookup_cons]
    cases hk : (k == k1) with
    | false =>
      rw [hk] at h
      exact ih h
    | true =>
      rw [hk] at h
      exact h

lemma memoizeCall_cached (ser : γ → String) (fn : γ → Nat → Except ε β)
    (st : MemoState ε β) (a : γ) (p : Except ε β)
    (h : st.1.lookup (ser a) = some p) :
    memoizeCall ser fn st a = (p, st) := by
  simp only [memoizeCall, h]

lemma memoizeCall_preserves (ser : γ → String) (fn : γ → Nat → Except ε β)
    (st : MemoState ε β) (a : γ) (k : String) (p : Except ε β)
    (h : st.1.lookup k = some p) :
    ((memoizeCall ser fn st a).2).1.lookup k = some p := by
  cases hl : st.1.lookup (ser a) with
  | some q =>
    rw [memoizeCall_cached ser fn st a q hl]
    exact h
  | none =>
    simp only [memoizeCall, hl]
    exact lookup_append_some h

/-- Once the cache maps key `k` to a settled rejection, every later call of
the memoized function whose arguments serialize to `k` yields that same
rejection and leaves the whole closure state (cache and invocation count)
unchanged. -/
lemma memoRun_cached_key (ser : γ → String) (fn : γ → Nat → Except ε β)
    (k : String) (e : ε) :
    ∀ (calls : List γ) (st : MemoState ε β),
      st.1.lookup k = some (.error e) →
      ∀ j a, calls.get? j = some a → ser a = k →
        ((memoRun ser fn calls st).get? j).map Prod.fst = some (.error e) ∧
        ((memoRun ser fn calls st).get? j).map (fun r => r.2) =
          (st :: (memoRun ser fn calls st).map (fun r => r.2)).get? j := by
  intro calls
  induction calls with
  | nil => intro st hst j a hj _; simp at hj
  | cons a0 rest ih =>
    intro st hst j a hj hser
    cases j with
    | zero =>
      rw [List.get?_cons_zero] at hj
      cases hj
      have hcall := memoizeCall_cached ser fn st a0 (.error e) (by rw [hser]; exact hst)
      simp only [memoRun, hcall]
      simp
    | succ j2 =>
      rw [List.get?_cons_succ] at hj
      have hpres := memoizeCall_preserves ser fn st a0 k (.error e) hst
      have hih := ih (memoizeCall ser fn st a0).2 hpres j2 a hj hser
      simp only [memoRun, List.get?_cons_succ, List.map_cons]
      exact hih

/-- The very first call of a memoized function: the cache is empty, so the
underlying operation runs once (count 0 → 1) and its deferred result is
stored under the serialized key. -/
lemma memoizeCall_first (ser : γ → String) (fn : γ → Nat → Except ε β) (args : γ) :
    memoizeCall ser fn (([], 0) : MemoState ε β) args =
      (fn args 0, ([(ser args, fn args 0)], 1)) := by
  simp [memoizeCall]

lemma lookup_single_self (k : String) (p : Except ε β) :
    ([(k, p)] : List (String × Except ε β)).lookup k = some p := by
  rw [List.lookup_cons]
  simp

/-- Concrete operation for the memoization spec example: the invocation
counter plays the incremented counter's role, and the value is `x * 2`. -/
def doubleOp : Nat → Nat → Except String Nat := fun x _ => .ok (x * 2)

/-- `JSON.stringify` of a single natural-number argument list, modelled as
its decimal rendering. -/
def natKey : Nat → String := fun n => toString n

/-- C6: calling the memoized function twice with identical arguments returns
the same settled result both times, leaves the state of the second call
identical to that of the first (so the underlying operation ran exactly
once, count 1), and on the concrete doubling operation both calls with
argument 2 resolve to 4 with the invocation counter at 1. -/
theorem memoizeAsync_single_invocation (ser : γ → String) (fn : γ → Nat → Except ε β)
    (args : γ) :
    (memoizeCall ser fn (memoizeCall ser fn ([], 0) args).2 args).1 =
      (memoizeCall ser fn ([], 0) args).1 ∧
    (memoizeCall ser fn (memoizeCall ser fn ([], 0) args).2 args).2 =
      (memoizeCall ser fn ([], 0) args).2 ∧
    ((memoizeCall ser fn ([], 0) args).2).2 = 1 ∧
    (memoizeCall natKey doubleOp ([], 0) 2).1 = .ok 4 ∧
    (memoizeCall natKey doubleOp (memoizeCall natKey doubleOp ([], 0) 2).2 2).1 = .ok 4 ∧
    ((memoizeCall natKey doubleOp (memoizeCall natKey doubleOp ([], 0) 2).2 2).2).2 = 1 := by
  have h1 := memoizeCall_first ser fn args
  have h2 := memoizeCall_cached ser fn ([(ser args, fn args 0)], 1) args (fn args 0)
    (lookup_single_self (ser args) (fn args 0))
  refine ⟨?_, ?_, ?_, rfl, rfl, rfl⟩
  · rw [h1, h2]
  · rw [h1, h2]
  · rw [h1]

/-- Operation whose every invocation rejects, in the two-argument
(memoizable) form. -/
def alwaysRejectOp : Nat → Nat → Except String Nat := fun _ _ => .error "boom"

/-- Serialization that maps every argument to the same key. -/
def constKey : Nat → String := fun _ => "k"

/-- C9: the memoized wrapper stores the deferred result under the argument
key before it settles and never removes it; hence if the first call fails,
its rejection is returned by that call, and every subsequent call whose
arguments serialize to the same key yields the same rejection while the
whole closure state — cache and invocation count — stays untouched (the
underlying operation is never invoked again for that key). -/
theorem memoizeAsync_caches_rejections (ser : γ → String) (fn : γ → Nat → Except ε β)
    (args : γ) (e : ε) (rest : List γ)
    (hfail : fn args 0 = .error e) :
    ((memoRun ser fn (args :: rest) ([], 0)).get? 0).map Prod.fst = some (.error e) ∧
    ∀ j a, rest.get? j = some a → ser a = ser args →
      ((memoRun ser fn (args :: rest) ([], 0)).get? (j + 1)).map Prod.fst =
        some (.error e) ∧
      ((memoRun ser fn (args :: rest) ([], 0)).get? (j + 1)).map (fun r => r.2) =
        ((memoRun ser fn (args :: rest) ([], 0)).get? j).map (fun r => r.2) := by
  have h1 : memoizeCall ser fn (([], 0) : MemoState ε β) args =
      (.error e, ([(ser args, .error e)], 1)) := by
    rw [memoizeCall_first ser fn args, hfail]
  have hrun : memoRun ser fn (args :: rest) ([], 0) =
      (.error e, (([(ser args, .error e)], 1) : MemoState ε β)) ::
        memoRun ser fn rest ([(ser args, .error e)], 1) := by
    simp only [memoRun, h1]
  have hst1 : (([(ser args, .error e)], 1) : MemoState ε β).1.lookup (ser args) =
      some (.error e) := lookup_single_self (ser args) (.error e)
  constructor
  · rw [hrun]
    rfl
  · intro j a hj hser
    have hrec := memoRun_cached_key ser fn (ser args) e rest
      ([(ser args, .error e)], 1) hst1 j a hj hser
    rw [hrun]
    refine ⟨?_, ?_⟩
    · rw [List.get?_cons_succ]
      exact hrec.1
    · rw [List.get?_cons_succ, hrec.2]
      cases j with
      | zero => rfl
      | succ j3 =>
        rw [List.get?_cons_succ, List.get?_cons_succ, List.get?_map]

/-- C9 witness: the theorem applied to an always-rejecting operation under a
constant key, with one subsequent call. -/
theorem memoizeAsync_caches_rejections_witness :
    alwaysRejectOp 0 0 = .error "boom" ∧
    ((memoRun constKey alwaysRejectOp [0, 1] ([], 0)).get? 1).map Prod.fst =
      some (.error "boom") ∧
    ((memoRun constKey alwaysRejectOp [0, 1] ([], 0)).get? 1).map (fun r => r.2) =
      ((memoRun constKey alwaysRejectOp [0, 1] ([], 0)).get? 0).map (fun r => r.2) :=
  ⟨rfl,
    ((memoizeAsync_caches_rejections constKey alwaysRejectOp 0 "boom" [1] rfl).2
      0 1 rfl rfl).1,
    ((memoizeAsync_caches_rejections constKey alwaysRejectOp 0 "boom" [1] rfl).2
      0 1 rfl rfl).2⟩

/-! ## Circuit breaker -/

/-- C1: evidence against the claimed cross-call breaker.  Every call to
`circuitBreaker` initialises a fresh `failures = 0, circuitOpen = false`
state and immediately runs the inner closure once, so every call invokes
the operation (the counter always advances) and the `Circuit is open`
rejection is unreachable; in particular four successive calls with an
always-failing operation and `maxFailures = 3` all invoke the operation and
all reject with the operation's own error — the fourth call does not reject
with the circuit-open error. -/
theorem circuitBreaker_no_cross_call_state (op : Nat → Except ε α)
    (maxFailures cooldownPeriod c : Nat) :
    (circuitBreaker op maxFailures cooldownPeriod c).2 = c + 1 ∧
    (circuitBreaker op maxFailures cooldownPeriod c).1 ≠ .circuitOpen ∧
    circuitBreakerCalls alwaysFailOp 3 1000 4 0 =
      ([.opError "boom", .opError "boom", .opError "boom", .opError "boom"], 4) := by
  refine ⟨?_, ?_, by decide⟩
  · simp only [circuitBreaker, circuitBreakerInner, if_neg (Bool.false_ne_true ∘ id)]
    cases op c with
    | ok v => rfl
    | error e =>
      by_cases h : maxFailures ≤ 0 + 1
      · simp [h]
      · simp [h]
  · simp only [circuitBreaker, circuitBreakerInner]
    cases op c with
    | ok v => simp
    | error e =>
      by_cases h : maxFailures ≤ 0 + 1
      · simp [h]
      · simp [h]

/-! ## Debounce -/

lemma foldl_dbCall_resolved (l : List Nat) :
    ∀ s : DebounceState α, (l.foldl dbCall s).resolved = s.resolved ∧
      (l.foldl dbCall s).rejected = s.rejected := by
  induction l with
  | nil => intro s; exact ⟨rfl, rfl⟩
  | cons x t ih =>
    intro s
    rw [List.foldl_cons]
    exact ih (dbCall s x)

lemma foldl_dbCall_range_succ (m : Nat) (s : DebounceState α) :
    (List.range (m + 1)).foldl dbCall s =
      { timer := some m
        resolved := s.resolved
        rejected := s.rejected } := by
  rw [List.range_succ, List.foldl_append, List.foldl_cons, List.foldl_nil]
  have h := foldl_dbCall_resolved (List.range m) s
  show dbCall ((List.range m).foldl dbCall s) m = _
  rw [dbCall]
  cases hs : (List.range m).foldl dbCall s
  simp only at h ⊢
  rw [hs] at h
  simp only at h
  rw [h.1, h.2]

/-- C2 (amended): within one debounce cycle of `n ≥ 1` calls whose single
eventual execution succeeds with `v`, only the deferred result of the last
call (index `n - 1`) resolves, and it resolves to `v`; the deferred results
handed to all earlier callers are left pending forever, and no deferred
result is ever rejected. -/
theorem debounceAsync_last_call_resolves (n : Nat) (hn : 1 ≤ n) (v : α) :
    (debounceCycle n (.ok v : Except ε α)).resolved = [(n - 1, v)] ∧
    (debounceCycle n (.ok v : Except ε α)).rejected = [] := by
  obtain ⟨m, rfl⟩ : ∃ m, n = m + 1 := ⟨n - 1, by omega⟩
  rw [debounceCycle, foldl_dbCall_range_succ]
  exact ⟨rfl, rfl⟩

/-- C2 witness: two calls in one cycle with eventual value 42 — only the
second call's deferred result resolves. -/
theorem debounceAsync_last_call_resolves_witness :
    1 ≤ 2 ∧
    (debounceCycle 2 (.ok 42 : Except String Int)).resolved = [(1, 42)] :=
  ⟨by decide, (debounceAsync_last_call_resolves 2 (by decide) 42).1⟩

/-- C2 counterexample: in a cycle of two calls whose execution succeeds with
42, the first call's deferred result does not resolve to 42 (it never
settles), contradicting the claim that every deferred result in the cycle
resolves to the execution's outcome. -/
theorem debounceAsync_counterexample :
    ¬ ((0, (42 : Int)) ∈ (debounceCycle 2 (.ok 42 : Except String Int)).resolved) := by
  decide

/-- C10: when the single eventual execution of the debounced operation
fails, no deferred result of the cycle is resolved and none is rejected —
the failure is unobservable through every promise the wrapper returned. -/
theorem debounceAsync_swallows_failures (n : Nat) (e : ε) :
    (debounceCycle n (.error e : Except ε α)).resolved = [] ∧
    (debounceCycle n (.error e : Except ε α)).rejected = [] := by
  cases n with
  | zero => exact ⟨rfl, rfl⟩
  | succ m =>
    rw [debounceCycle, foldl_dbCall_range_succ]
    exact ⟨rfl, rfl⟩

end AsyncUtils
